import Mathlib

/-!
Verification of the diff-hunk core of gh-review: unified-diff hunk parsing
(pkg/diffhunk), bidirectional position mapping and commenting ranges
(pkg/diffposition), and the two-strategy target location plus minimal-context
patch synthesis of the applier's createPatch (pkg/github/client.go, applier
part).  Go ints are modeled as unbounded Int/Nat (no overflow is relevant to
any property below); strings are modeled by Lean String with byte positions
taken as character positions (all inputs of interest are ASCII); Go runtime
panics (out-of-range slice indexing) are modeled as a distinguished error
value.
-/

namespace GhReview

/-- `DiffChangeType` from pkg/diffhunk: the type of change in a diff line. -/
inductive DiffChangeType where
  | Context
  | Add
  | Delete
  | Control
deriving DecidableEq, Repr

/-- `DiffLine` from pkg/diffhunk: a single line in a diff.  The Go field
`Type` is renamed `lineType` (`Type` is reserved in Lean). -/
structure DiffLine where
  lineType       : DiffChangeType
  OldLineNumber  : Int    -- 1-based, -1 if not applicable
  NewLineNumber  : Int    -- 1-based, -1 if not applicable
  Text           : String -- line content without the prefix (+, -, or space)
  PositionInHunk : Nat    -- position within the hunk (0-based)
deriving DecidableEq, Repr

/-- `DiffHunk` from pkg/diffhunk: a hunk in a unified diff. -/
structure DiffHunk where
  OldStart : Int
  OldLines : Int
  NewStart : Int
  NewLines : Int
  Lines    : List DiffLine
deriving DecidableEq, Repr

/-- Go `strings.Split(s, "\n")`, written as a character scan. -/
def splitLinesAux : List Char → List Char → List String
  | [], acc => [String.mk acc.reverse]
  | c :: cs, acc =>
    if c = '\n' then String.mk acc.reverse :: splitLinesAux cs []
    else splitLinesAux cs (c :: acc)

def splitLines (s : String) : List String := splitLinesAux s.data []

/-- Whitespace as matched by `\s` in Go's regexp (RE2): `[\t\n\f\r ]`. -/
def isGoSpace (c : Char) : Bool :=
  c = ' ' || c = '\t' || c = '\n' || c = '\x0c' || c = '\r'

def isDigitChar (c : Char) : Bool := '0' ≤ c ∧ c ≤ '9'

/-- Numeric value of a digit run (`strconv.Atoi` on the captured digits). -/
def digitsToNat : List Char → Nat → Nat
  | [], acc => acc
  | c :: cs, acc => digitsToNat cs (acc * 10 + (c.toNat - '0'.toNat))

/-- Consume one-or-more characters satisfying `p`; return the rest and the
consumed run, or `none` if the run is empty. -/
def takeRun (p : Char → Bool) (cs : List Char) : Option (List Char × List Char) :=
  let run := cs.takeWhile p
  if run.isEmpty then none else some (run, cs.drop run.length)

/-- The header regex of `ParseDiffHunk`:
`^@@\s+-(\d+)(?:,(\d+))?\s+\+(\d+)(?:,(\d+))?\s+@@` (anything after the second
`@@` is ignored; an omitted count defaults to 1).  Returns
(oldStart, oldLines, newStart, newLines). -/
def parseHunkHeader (line : String) : Option (Int × Int × Int × Int) :=
  match line.data with
  | '@' :: '@' :: rest => do
    let (_, rest) ← takeRun isGoSpace rest
    match rest with
    | '-' :: rest => do
      let (d1, rest) ← takeRun isDigitChar rest
      let (oldLines, rest) ←
        match rest with
        | ',' :: rest' => do
          let (d2, rest'') ← takeRun isDigitChar rest'
          pure (digitsToNat d2 0, rest'')
        | _ => pure (1, rest)
      let (_, rest) ← takeRun isGoSpace rest
      match rest with
      | '+' :: rest => do
        let (d3, rest) ← takeRun isDigitChar rest
        let (newLines, rest) ←
          match rest with
          | ',' :: rest' => do
            let (d4, rest'') ← takeRun isDigitChar rest'
            pure (digitsToNat d4 0, rest'')
          | _ => pure (1, rest)
        let (_, rest) ← takeRun isGoSpace rest
        match rest with
        | '@' :: '@' :: _ =>
          some ((digitsToNat d1 0 : Int), (oldLines : Int),
                (digitsToNat d3 0 : Int), (newLines : Int))
        | _ => none
      | _ => none
    | _ => none
  | _ => none

/-- The body loop of `ParseDiffHunk`: classify each non-empty line by its
first character, advancing the old/new cursors.  An unknown first character
falls back to a Context line whose numbers stay at the Go zero value 0 and
which does not advance the cursors. -/
def parseBody : List String → Int → Int → Nat → List DiffLine
  | [], _, _, _ => []
  | l :: ls, oldLine, newLine, pos =>
    match l.data with
    | [] => parseBody ls oldLine newLine pos
    | c :: restChars =>
      if c = ' ' then
        ⟨.Context, oldLine, newLine, String.mk restChars, pos⟩ ::
          parseBody ls (oldLine + 1) (newLine + 1) (pos + 1)
      else if c = '+' then
        ⟨.Add, -1, newLine, String.mk restChars, pos⟩ ::
          parseBody ls oldLine (newLine + 1) (pos + 1)
      else if c = '-' then
        ⟨.Delete, oldLine, -1, String.mk restChars, pos⟩ ::
          parseBody ls (oldLine + 1) newLine (pos + 1)
      else if c = '\\' then
        ⟨.Control, -1, -1, l, pos⟩ ::
          parseBody ls oldLine newLine (pos + 1)
      else
        ⟨.Context, 0, 0, l, pos⟩ ::
          parseBody ls oldLine newLine (pos + 1)

/-- `ParseDiffHunk` from pkg/diffhunk. -/
def ParseDiffHunk (hunk : String) : Except String DiffHunk :=
  match splitLines hunk with
  | [] => .error "empty diff hunk"
  | first :: rest =>
    match parseHunkHeader first with
    | none => .error ("invalid diff hunk header: " ++ first)
    | some (oldStart, oldLines, newStart, newLines) =>
      .ok { OldStart := oldStart, OldLines := oldLines,
            NewStart := newStart, NewLines := newLines,
            Lines := parseBody rest oldStart newStart 0 }

/-- Match of the hunk-splitting regex `@@[^@]+@@` at the head of `cs`:
returns the length of the (greedy, deterministic) match. -/
def headerMatchLen (cs : List Char) : Option Nat :=
  match cs with
  | '@' :: '@' :: rest =>
    let run := rest.takeWhile (· ≠ '@')
    if run.isEmpty then none
    else
      match rest.drop run.length with
      | '@' :: '@' :: _ => some (2 + run.length + 2)
      | _ => none
  | _ => none

/-- `FindAllStringIndex` of `(?m)^@@[^@]+@@`: the start positions of all
successive non-overlapping matches anchored at line starts. -/
def findHeadersAux : Nat → List Char → Nat → Bool → List Nat
  | 0, _, _, _ => []
  | _ + 1, [], _, _ => []
  | fuel + 1, c :: cs, pos, atStart =>
    if atStart then
      match headerMatchLen (c :: cs) with
      | some len =>
        -- a match always ends in '@', so the next position is not a line start
        pos :: findHeadersAux fuel ((c :: cs).drop len) (pos + len) false
      | none => findHeadersAux fuel cs (pos + 1) (c = '\n')
    else findHeadersAux fuel cs (pos + 1) (c = '\n')

def findHeaders (cs : List Char) : List Nat :=
  findHeadersAux (cs.length + 1) cs 0 true

/-- Slice the patch text into per-hunk substrings, from each header start up
to the next header start (or end of text). -/
def hunkSlices (cs : List Char) : List Nat → List String
  | [] => []
  | s :: rest =>
    let e := match rest with | [] => cs.length | s2 :: _ => s2
    String.mk ((cs.drop s).take (e - s)) :: hunkSlices cs rest

def parseHunksList : List String → Nat → Except String (List DiffHunk)
  | [], _ => .ok []
  | h :: hs, i =>
    match ParseDiffHunk h with
    | .error e => .error ("failed to parse hunk " ++ toString i ++ ": " ++ e)
    | .ok dh => (parseHunksList hs (i + 1)).map (dh :: ·)

/-- `ParsePatch` from pkg/diffhunk: split on `(?m)^@@[^@]+@@` headers and
parse each slice with `ParseDiffHunk`. -/
def ParsePatch (patch : String) : Except String (List DiffHunk) :=
  let cs := patch.data
  match findHeaders cs with
  | [] => .error "no hunks found in patch"
  | starts => parseHunksList (hunkSlices cs starts) 0

/-- `GetZeroBased` from pkg/diffhunk: 1-based to 0-based, 0 stays 0. -/
def GetZeroBased (line : Int) : Int := if line = 0 then 0 else line - 1

/-- `GetAddedLines` from pkg/diffhunk: the stripped text of all `+` lines of
the raw hunk text, skipping the header line and empty lines. -/
def GetAddedLines (hunk : String) : List String :=
  match splitLines hunk with
  | [] => []
  | _ :: rest =>
    rest.filterMap fun l =>
      match l.data with
      | [] => none
      | c :: restChars => if c = '+' then some (String.mk restChars) else none

/-- The inner replay loop of `MapOldPositionToNew` for a hunk containing the
target old line: `some r` when one of the Go `return`s fires, `none` when the
loop over the hunk's lines falls through. -/
def replayOld : List DiffLine → Int → Int → Int → Option Int
  | [], _, _, _ => none
  | l :: ls, curOld, curNew, target =>
    match l.lineType with
    | .Context =>
      if curOld = target then some curNew
      else replayOld ls (curOld + 1) (curNew + 1) target
    | .Delete =>
      if curOld = target then some (-1)
      else replayOld ls (curOld + 1) curNew target
    | .Add => replayOld ls curOld (curNew + 1) target
    | .Control => replayOld ls curOld curNew target

/-- The hunk loop of `MapOldPositionToNew`, carrying the cumulative offset. -/
def mapOldLoop : List DiffHunk → Int → Int → Int
  | [], offset, oldLine => oldLine + offset
  | h :: rest, offset, oldLine =>
    if oldLine < h.OldStart then oldLine + offset
    else if oldLine ≥ h.OldStart + h.OldLines then
      mapOldLoop rest (offset + (h.NewLines - h.OldLines)) oldLine
    else
      match replayOld h.Lines h.OldStart h.NewStart oldLine with
      | some r => r
      | none => mapOldLoop rest offset oldLine

/-- `MapOldPositionToNew` from pkg/diffposition. -/
def MapOldPositionToNew (patch : String) (oldLine : Int) : Except String Int :=
  match ParsePatch patch with
  | .error e => .error e
  | .ok hunks =>
    match hunks with
    | [] => .ok (mapOldLoop [] 0 oldLine)
    | h0 :: _ =>
      if oldLine < h0.OldStart then .ok oldLine
      else .ok (mapOldLoop hunks 0 oldLine)

/-- The inner replay loop of `MapNewPositionToOld`. -/
def replayNew : List DiffLine → Int → Int → Int → Option Int
  | [], _, _, _ => none
  | l :: ls, curOld, curNew, target =>
    match l.lineType with
    | .Context =>
      if curNew = target then some curOld
      else replayNew ls (curOld + 1) (curNew + 1) target
    | .Delete => replayNew ls (curOld + 1) curNew target
    | .Add =>
      if curNew = target then some (-1)
      else replayNew ls curOld (curNew + 1) target
    | .Control => replayNew ls curOld curNew target

/-- The hunk loop of `MapNewPositionToOld`. -/
def mapNewLoop : List DiffHunk → Int → Int → Int
  | [], offset, newLine => newLine - offset
  | h :: rest, offset, newLine =>
    if newLine < h.NewStart then newLine - offset
    else if newLine ≥ h.NewStart + h.NewLines then
      mapNewLoop rest (offset + (h.NewLines - h.OldLines)) newLine
    else
      match replayNew h.Lines h.OldStart h.NewStart newLine with
      | some r => r
      | none => mapNewLoop rest offset newLine

/-- `MapNewPositionToOld` from pkg/diffposition. -/
def MapNewPositionToOld (patch : String) (newLine : Int) : Except String Int :=
  match ParsePatch patch with
  | .error e => .error e
  | .ok hunks =>
    match hunks with
    | [] => .ok (mapNewLoop [] 0 newLine)
    | h0 :: _ =>
      if newLine < h0.NewStart then .ok newLine
      else .ok (mapNewLoop hunks 0 newLine)

/-- The per-line computation of the `GetCommentingRanges` loop: the side's
line number when the line is commentable there (`isCommentable && lineNum > 0`
in Go; base side: Delete/Context keyed by old line number, modified side:
Add/Context keyed by new line number), `none` otherwise. -/
def commentKey (isBase : Bool) (l : DiffLine) : Option Int :=
  let lineNum := if isBase then l.OldLineNumber else l.NewLineNumber
  let isCommentable :=
    if isBase then l.lineType = .Delete ∨ l.lineType = .Context
    else l.lineType = .Add ∨ l.lineType = .Context
  if isCommentable ∧ lineNum > 0 then some lineNum else none

/-- The per-hunk scan of `GetCommentingRanges`.  State: `inRange` is encoded
as `some (rangeStart, rangeEnd)`, `none` when no range is open. -/
def gcrLines (isBase : Bool) :
    List DiffLine → Option (Int × Int) → List (Int × Int) → List (Int × Int) × Option (Int × Int)
  | [], op, acc => (acc, op)
  | l :: ls, op, acc =>
    match commentKey isBase l with
    | some lineNum =>
      match op with
      | none => gcrLines isBase ls (some (lineNum, lineNum)) acc
      | some (s, _) => gcrLines isBase ls (some (s, lineNum)) acc
    | none =>
      match op with
      | some r => gcrLines isBase ls none (acc ++ [r])
      | none => gcrLines isBase ls none acc

def gcrHunks (isBase : Bool) : List DiffHunk → List (Int × Int) → List (Int × Int)
  | [], acc => acc
  | h :: hs, acc =>
    let (acc', open_) := gcrLines isBase h.Lines none acc
    -- close last range if still open at the end of the hunk
    match open_ with
    | some r => gcrHunks isBase hs (acc' ++ [r])
    | none => gcrHunks isBase hs acc'

/-- `GetCommentingRanges` from pkg/diffposition. -/
def GetCommentingRanges (patch : String) (isBase : Bool) :
    Except String (List (Int × Int)) :=
  match ParsePatch patch with
  | .error e => .error e
  | .ok hunks => .ok (gcrHunks isBase hunks [])

/-- The line loop of `GetDiffLineByPosition`: `.inl line` when the position is
hit, `.inr pos'` with the updated counter when the loop falls through. -/
def gdlLines : List DiffLine → Int → Int → DiffLine ⊕ Int
  | [], pos, _ => .inr pos
  | l :: ls, pos, n =>
    if pos = n then .inl l
    else if l.lineType ≠ .Control then gdlLines ls (pos + 1) n
    else gdlLines ls pos n

def gdlHunks : List DiffHunk → Int → Int → Option DiffLine
  | [], _, _ => none
  | h :: hs, pos, n =>
    match gdlLines h.Lines pos n with
    | .inl line => some line
    | .inr pos' => gdlHunks hs pos' n

/-- `GetDiffLineByPosition` from pkg/diffhunk: find a diff line by its 1-based
position in the overall diff, not counting Control lines. -/
def GetDiffLineByPosition (hunks : List DiffHunk) (diffLineNumber : Int) :
    Option DiffLine :=
  gdlHunks hunks 1 diffLineNumber

/-! ## The applier's createPatch (pkg/github/client.go, applier part)

`createPatch` reads the current file itself; the file content is modeled as
the already-split list of lines (`strings.Split(string(fileContent), "\n")`).
Only the comment fields that `createPatch` uses are modeled. -/

/-- The fields of `github.ReviewComment` consumed by `createPatch`. -/
structure ReviewComment where
  Path          : String
  DiffHunk      : String
  SuggestedCode : String
deriving DecidableEq, Repr

/-- Errors of `createPatch`.  In Go these are `fmt.Errorf` values carrying the
interpolated data shown here; `indexOutOfRange` stands for the runtime panic
that Go raises when the located target is (partly) beyond the end of the
current file, so that the verification guard is skipped and the synthesis
loops index out of range. -/
inductive CPErr where
  | noAddedLines
  | noContentMatch (lineCount : Nat) (firstLine : String)
  | contentMismatch (line : Int) (expected actual : List String)
  | indexOutOfRange
deriving DecidableEq, Repr

/-- Strategy 1 of `createPatch`: parse the diff hunk and use the zero-based
new-file line number of its first Add line. -/
def strat1Target (diffHunk : String) : Option Int :=
  if diffHunk = "" then none
  else
    match ParseDiffHunk diffHunk with
    | .error _ => none
    | .ok parsedHunk =>
      (parsedHunk.Lines.find? (fun l => l.lineType = .Add)).map
        (fun l => GetZeroBased l.NewLineNumber)

/-- Does `addedLines` occur verbatim at offset `i` of `fileLines`?  (The inner
match loop of Strategy 2 together with its bounds condition.) -/
def regionEqB (fileLines addedLines : List String) (i : Nat) : Bool :=
  i + addedLines.length ≤ fileLines.length &&
    (fileLines.drop i).take addedLines.length == addedLines

/-- Strategy 2 of `createPatch`: brute-force scan of every offset
`0 ≤ i ≤ len(fileLines) - len(addedLines)`, accepting the first match. -/
def strat2Target (fileLines addedLines : List String) : Option Nat :=
  if addedLines.length ≤ fileLines.length then
    (List.range (fileLines.length - addedLines.length + 1)).find?
      (fun i => regionEqB fileLines addedLines i)
  else none

/-- Index of the first componentwise difference of two lists. -/
def firstDiffIdx : List String → List String → Option Nat
  | [], _ => none
  | _, [] => none
  | a :: as_, b :: bs =>
    if a ≠ b then some 0 else (firstDiffIdx as_ bs).map (· + 1)

/-- The verification phase of `createPatch` at candidate target `t`: compare
`fileLines[t..t+len(addedLines))` with `addedLines`, failing with the 1-based
absolute line of the first difference plus the expected and actual spans (the
data written to the diagnostic artifact by `saveMismatchDiff`).  When the
region sticks out past the end of the file, Go skips the comparison and then
panics while synthesizing; this surfaces as `indexOutOfRange`. -/
def verifyAt (fileLines addedLines : List String) (t : Nat) : Except CPErr Nat :=
  if t + addedLines.length ≤ fileLines.length then
    match firstDiffIdx ((fileLines.drop t).take addedLines.length) addedLines with
    | some j => .error (.contentMismatch ((t : Int) + j + 1) addedLines
        ((fileLines.drop t).take addedLines.length))
    | none => .ok t
  else .error .indexOutOfRange

/-- The target-location phase of `createPatch` (the spec's `locate`):
Strategy 1, then Strategy 2 only if Strategy 1 produced no candidate, then
verification of whichever candidate exists. -/
def locateTarget (fileLines : List String) (diffHunk : String)
    (addedLines : List String) : Except CPErr Nat :=
  match strat1Target diffHunk with
  | some tI =>
    if tI < 0 then .error .indexOutOfRange  -- unreachable: Add lines have NewLineNumber ≥ 0
    else verifyAt fileLines addedLines tI.toNat
  | none =>
    match strat2Target fileLines addedLines with
    | some t => verifyAt fileLines addedLines t
    | none => .error (.noContentMatch addedLines.length (addedLines.headD ""))

/-- Go `strings.TrimSuffix(s, "\n")`. -/
def trimSuffixNL (s : String) : String :=
  match s.data.getLast? with
  | some '\n' => String.mk s.data.dropLast
  | _ => s

/-- The synthesis phase of `createPatch`, producing the patch as its list of
lines (Go writes each of these followed by `"\n"` to a `strings.Builder`). -/
def buildPatchLines (path : String) (fileLines : List String) (targetLine : Nat)
    (removeCount : Nat) (suggestedCode : String) : List String :=
  let contextSize := 3
  let startLine := targetLine - contextSize  -- Nat subtraction = Go's clamp of negatives to 0
  let endLine := min (targetLine + removeCount + contextSize) fileLines.length
  let oldLineCount := endLine - startLine
  let suggestionLines := splitLines (trimSuffixNL suggestedCode)
  let newLineCount : Int := (oldLineCount : Int) - removeCount + suggestionLines.length
  let p1 := startLine + 1
  let header := "@@ -" ++ toString p1 ++ "," ++ toString oldLineCount ++
    " +" ++ toString p1 ++ "," ++ toString newLineCount ++ " @@"
  ["diff --git a/" ++ path ++ " b/" ++ path,
   "--- a/" ++ path,
   "+++ b/" ++ path,
   header]
  ++ ((fileLines.drop startLine).take (targetLine - startLine)).map (" " ++ ·)
  ++ ((fileLines.drop targetLine).take removeCount).map ("-" ++ ·)
  ++ suggestionLines.map ("+" ++ ·)
  ++ ((fileLines.drop (targetLine + removeCount)).take (endLine - (targetLine + removeCount))).map (" " ++ ·)

/-- `createPatch` from the applier: extract the added lines, locate the target
(two strategies plus verification), then synthesize the minimal-context patch
with `removeCount = len(addedLines)`. -/
def createPatch (fileLines : List String) (comment : ReviewComment) :
    Except CPErr (List String) :=
  if (GetAddedLines comment.DiffHunk).isEmpty then .error .noAddedLines
  else
    match locateTarget fileLines comment.DiffHunk
        (GetAddedLines comment.DiffHunk) with
    | .error e => .error e
    | .ok targetLine =>
      .ok (buildPatchLines comment.Path fileLines targetLine
            (GetAddedLines comment.DiffHunk).length comment.SuggestedCode)

/-! ## Replay of a hunk's line sequence and well-formedness

The spec's data-model invariant for a Hunk: walking the line sequence with
cursors initialized to old-start/new-start, advancing per Context (+1/+1),
Delete (+1/0), Add (0/+1), Control (0/0), must end at
old-start+old-line-count / new-start+new-line-count. -/

/-- Replay a line sequence from the given cursor pair. -/
def replayEnd : List DiffLine → Int → Int → Int × Int
  | [], curOld, curNew => (curOld, curNew)
  | l :: ls, curOld, curNew =>
    match l.lineType with
    | .Context => replayEnd ls (curOld + 1) (curNew + 1)
    | .Delete => replayEnd ls (curOld + 1) curNew
    | .Add => replayEnd ls curOld (curNew + 1)
    | .Control => replayEnd ls curOld curNew

/-- Number of lines advancing the old cursor (Context and Delete lines). -/
def ctxDelCount (ls : List DiffLine) : Nat :=
  (ls.filter (fun l => l.lineType = .Context ∨ l.lineType = .Delete)).length

/-- Number of lines advancing the new cursor (Context and Add lines). -/
def ctxAddCount (ls : List DiffLine) : Nat :=
  (ls.filter (fun l => l.lineType = .Context ∨ l.lineType = .Add)).length

/-- The line numbers recorded on a hunk's lines agree with the replay cursors
started at the given pair (and sentinels are in place).  This is how
`ParseDiffHunk` assigns numbers when no unknown-marker fallback line occurs. -/
def linesConsistentB : List DiffLine → Int → Int → Bool
  | [], _, _ => true
  | l :: ls, curOld, curNew =>
    match l.lineType with
    | .Context => l.OldLineNumber == curOld && l.NewLineNumber == curNew &&
        linesConsistentB ls (curOld + 1) (curNew + 1)
    | .Delete => l.OldLineNumber == curOld && l.NewLineNumber == -1 &&
        linesConsistentB ls (curOld + 1) curNew
    | .Add => l.OldLineNumber == -1 && l.NewLineNumber == curNew &&
        linesConsistentB ls curOld (curNew + 1)
    | .Control => linesConsistentB ls curOld curNew

/-- The spec's Hunk invariant: 1-based starts, nonnegative counts, line
numbers consistent with the replay, and the replay reproducing
old-start+old-line-count / new-start+new-line-count. -/
def hunkWF (h : DiffHunk) : Bool :=
  1 ≤ h.OldStart && 1 ≤ h.NewStart && 0 ≤ h.OldLines && 0 ≤ h.NewLines &&
  linesConsistentB h.Lines h.OldStart h.NewStart &&
  replayEnd h.Lines h.OldStart h.NewStart ==
    (h.OldStart + h.OldLines, h.NewStart + h.NewLines)

/-- The spec's Patch invariant: hunks in file order, non-overlapping, on both
numberings. -/
def hunksSortedB : List DiffHunk → Bool
  | [] => true
  | [_] => true
  | a :: b :: rest =>
    a.OldStart + a.OldLines ≤ b.OldStart &&
    a.NewStart + a.NewLines ≤ b.NewStart &&
    hunksSortedB (b :: rest)

/-- Well-formed patch: every hunk satisfies the Hunk invariant and the list
satisfies the Patch invariant. -/
def patchWF (hunks : List DiffHunk) : Bool :=
  hunks.all hunkWF && hunksSortedB hunks

/-- Single-stream version of the `GetDiffLineByPosition` double loop: the
counter is checked against the target before the Control test, so a Control
line encountered while the counter equals the target is returned itself. -/
def gdlStream : List DiffLine → Int → Int → Option DiffLine
  | [], _, _ => none
  | l :: ls, pos, n =>
    if pos = n then some l
    else if l.lineType ≠ .Control then gdlStream ls (pos + 1) n
    else gdlStream ls pos n

/-- No Control line of `ls` is encountered while the running counter (which
starts at `pos` and advances only on non-Control lines) equals `n`; i.e. no
Control line sits between the counted positions `n - 1` and `n`. -/
def noControlAtPos : List DiffLine → Int → Int → Bool
  | [], _, _ => true
  | l :: ls, pos, n =>
    if l.lineType = .Control then pos ≠ n && noControlAtPos ls pos n
    else noControlAtPos ls (pos + 1) n

/-- C5 counterexample data: a hunk starting with a Control line. -/
def c5CtlLine : DiffLine := ⟨.Control, -1, -1, "\\ No newline at end of file", 0⟩

def c5CtxLine : DiffLine := ⟨.Context, 1, 1, "x", 1⟩

def c5Hunks : List DiffHunk :=
  [{ OldStart := 1, OldLines := 1, NewStart := 1, NewLines := 1,
     Lines := [c5CtlLine, c5CtxLine] }]

/-- C5 witness data: the hunk of `TestGetDiffLineByPosition`. -/
def c5WitnessHunks : List DiffHunk :=
  [{ OldStart := 1, OldLines := 5, NewStart := 1, NewLines := 6,
     Lines := [⟨.Context, 1, 1, "line 1", 0⟩,
               ⟨.Context, 2, 2, "line 2", 1⟩,
               ⟨.Add, -1, 3, "added line", 2⟩,
               ⟨.Context, 3, 4, "line 3", 3⟩,
               ⟨.Context, 4, 5, "line 4", 4⟩,
               ⟨.Context, 5, 6, "line 5", 5⟩] }]

/-- C3 counterexample input: a hunk that parses successfully but whose body
(empty) does not match the declared line counts. -/
def c3Hunk : DiffHunk :=
  { OldStart := 1, OldLines := 3, NewStart := 1, NewLines := 4, Lines := [] }

/-- The parse of the spec's example hunk
`@@ -1,3 +1,4 @@\n context line 1\n context line 2\n+added line\n context line 3`. -/
def c3WitnessHunk : DiffHunk :=
  { OldStart := 1, OldLines := 3, NewStart := 1, NewLines := 4,
    Lines := [⟨.Context, 1, 1, "context line 1", 0⟩,
              ⟨.Context, 2, 2, "context line 2", 1⟩,
              ⟨.Add, -1, 3, "added line", 2⟩,
              ⟨.Context, 3, 4, "context line 3", 3⟩] }

/-! ## C3: parser round-trip on header arithmetic -/

/-- Replay always ends at start + (number of cursor-advancing lines). -/
theorem replayEnd_eq_counts (ls : List DiffLine) (curOld curNew : Int) :
    replayEnd ls curOld curNew =
      (curOld + ctxDelCount ls, curNew + ctxAddCount ls) := by
  induction ls generalizing curOld curNew with
  | nil => simp [replayEnd, ctxDelCount, ctxAddCount]
  | cons l ls ih =>
    rcases hl : l.lineType <;>
      simp [replayEnd, hl, ih, ctxDelCount, ctxAddCount, List.filter_cons,
        Prod.ext_iff] <;>
      omega

/-- Witness patch for the position-mapping claims. -/
def mapWPatch : String := "@@ -2,4 +2,4 @@\n ctx1\n+add\n ctx2\n-del\n ctx3"

def mapWCtx : DiffLine := ⟨.Context, 3, 4, "ctx2", 2⟩

def mapWAdd : DiffLine := ⟨.Add, -1, 3, "add", 1⟩

def mapWDel : DiffLine := ⟨.Delete, 4, -1, "del", 3⟩

/-- The parse of `mapWPatch`. -/
def mapWHunk : DiffHunk :=
  { OldStart := 2, OldLines := 4, NewStart := 2, NewLines := 4,
    Lines := [⟨.Context, 2, 2, "ctx1", 0⟩, mapWAdd, mapWCtx, mapWDel,
              ⟨.Context, 5, 5, "ctx3", 4⟩] }

/-- Greedy coalescing of a key sequence into closed intervals: a run of
consecutive `some` keys becomes one interval from its first to its last key;
a `none` (non-commentable line) closes any open interval, and so does the end
of the sequence (a hunk boundary). -/
def runsOf : List (Option Int) → Option (Int × Int) → List (Int × Int)
  | [], none => []
  | [], some r => [r]
  | none :: rest, none => runsOf rest none
  | none :: rest, some r => r :: runsOf rest none
  | some k :: rest, none => runsOf rest (some (k, k))
  | some k :: rest, some (s, _) => runsOf rest (some (s, k))

/-- Witness data for the createPatch claims. -/
def cpWComment : ReviewComment :=
  { Path := "f.txt", DiffHunk := "@@ -1,2 +1,2 @@\n line0\n+NEW",
    SuggestedCode := "REPL\n" }

def cpWFile : List String := ["a", "NEW", "b"]

def cpWOut : List String :=
  ["diff --git a/f.txt b/f.txt", "--- a/f.txt", "+++ b/f.txt",
   "@@ -1,3 +1,3 @@", " a", "-NEW", "+REPL", " b"]

/-- The parse of the C9 example patch
`@@ -10,5 +10,4 @@\n context 1\n-deleted 1\n-deleted 2\n context 2\n context 3`. -/
def c9WitnessHunks : List DiffHunk :=
  [{ OldStart := 10, OldLines := 5, NewStart := 10, NewLines := 4,
     Lines := [⟨.Context, 10, 10, "context 1", 0⟩,
               ⟨.Delete, 11, -1, "deleted 1", 1⟩,
               ⟨.Delete, 12, -1, "deleted 2", 2⟩,
               ⟨.Context, 13, 11, "context 2", 3⟩,
               ⟨.Context, 14, 12, "context 3", 4⟩] }]

/-- C3 counterexample: `"@@ -1,3 +1,4 @@"` (a header with no body) parses
successfully, yet replaying its (empty) DiffLine sequence ends at the
declared starts, not at old-start + old-line-count / new-start +
new-line-count.  The parser does not enforce the header arithmetic. -/
theorem c3_replay_counterexample :
    ParseDiffHunk "@@ -1,3 +1,4 @@" = .ok c3Hunk ∧
    replayEnd c3Hunk.Lines c3Hunk.OldStart c3Hunk.NewStart ≠
      (c3Hunk.OldStart + c3Hunk.OldLines, c3Hunk.NewStart + c3Hunk.NewLines) := by
  constructor
  · rfl
  · decide

/-- C3 (amended): for every successfully parsed hunk whose body actually
contains old-line-count lines advancing the old cursor (Context/Delete) and
new-line-count lines advancing the new cursor (Context/Add) — which the
parser itself does not enforce — replaying the DiffLine sequence from the
declared starts ends exactly at old-start + old-line-count and
new-start + new-line-count. -/
theorem c3_replay_header_arithmetic (text : String) (h : DiffHunk)
    (_hp : ParseDiffHunk text = .ok h)
    (hold : (ctxDelCount h.Lines : Int) = h.OldLines)
    (hnew : (ctxAddCount h.Lines : Int) = h.NewLines) :
    replayEnd h.Lines h.OldStart h.NewStart =
      (h.OldStart + h.OldLines, h.NewStart + h.NewLines) := by
  rw [replayEnd_eq_counts, hold.symm, hnew.symm]

/-- Witness for C3 (amended) at the spec's own example hunk. -/
theorem c3_replay_header_arithmetic_witness :
    replayEnd c3WitnessHunk.Lines c3WitnessHunk.OldStart c3WitnessHunk.NewStart =
      (c3WitnessHunk.OldStart + c3WitnessHunk.OldLines,
       c3WitnessHunk.NewStart + c3WitnessHunk.NewLines) :=
  c3_replay_header_arithmetic
    "@@ -1,3 +1,4 @@\n context line 1\n context line 2\n+added line\n context line 3"
    c3WitnessHunk rfl (by decide) (by decide)

/-! ## C5: lineAtOverallPosition -/

/-- The double loop over hunks equals the single loop over the concatenated
line stream. -/
theorem gdlHunks_eq_gdlStream (hunks : List DiffHunk) (pos n : Int) :
    gdlHunks hunks pos n = gdlStream (hunks.flatMap (·.Lines)) pos n := by
  induction hunks generalizing pos with
  | nil => simp [gdlHunks, gdlStream]
  | cons h hs ih =>
    have inner : ∀ (ls : List DiffLine) (p : Int),
        gdlStream (ls ++ hs.flatMap (·.Lines)) p n =
          (match gdlLines ls p n with
           | .inl line => some line
           | .inr p' => gdlStream (hs.flatMap (·.Lines)) p' n) := by
      intro ls
      induction ls with
      | nil => intro p; simp [gdlLines, gdlStream]
      | cons l ls ihl =>
        intro p
        by_cases hpn : p = n
        · simp [gdlStream, gdlLines, hpn]
        · by_cases hc : l.lineType = .Control <;>
            simp [gdlStream, gdlLines, hpn, hc, ihl]
    simp only [gdlHunks, List.flatMap_cons, inner]
    match gdlLines h.Lines pos n with
    | .inl line => rfl
    | .inr p' => exact ih p'

/-- The single loop returns the `(n - pos + 1)`-th non-Control line when no
Control line is hit at counter value `n`. -/
theorem gdlStream_eq_filter_get (ls : List DiffLine) (pos n : Int)
    (hle : pos ≤ n) (hctl : noControlAtPos ls pos n = true) :
    gdlStream ls pos n =
      (ls.filter (fun l => l.lineType ≠ .Control)).get? (n - pos).toNat := by
  induction ls generalizing pos with
  | nil => simp [gdlStream]
  | cons l ls ih =>
    by_cases hc : l.lineType = .Control
    · simp only [noControlAtPos, if_pos hc, Bool.and_eq_true, decide_eq_true_eq] at hctl
      have hpn : pos ≠ n := hctl.1
      simp only [gdlStream, if_neg hpn, if_neg (show ¬(l.lineType ≠ .Control) from fun hne => hne hc), hc]
      rw [ih pos hle hctl.2]
      simp [hc]
    · simp only [noControlAtPos, if_neg hc] at hctl
      by_cases hpn : pos = n
      · subst hpn
        simp [gdlStream, List.filter_cons, hc, Int.sub_self]
      · have hlt : pos < n := lt_of_le_of_ne hle hpn
        simp only [gdlStream, if_neg hpn, if_pos hc]
        rw [ih (pos + 1) (by omega) hctl]
        have : (n - pos).toNat = (n - (pos + 1)).toNat + 1 := by omega
        simp [List.filter_cons, hc, this]

/-- C5 counterexample: with a Control line at the head of the stream,
`GetDiffLineByPosition` at position 1 returns the Control line itself, not
the first non-Control line of the stream as the claim states. -/
theorem c5_counterexample :
    GetDiffLineByPosition c5Hunks 1 = some c5CtlLine ∧
    c5CtlLine.lineType = .Control ∧
    ((c5Hunks.flatMap (·.Lines)).filter
      (fun l => l.lineType ≠ .Control)).get? 0 = some c5CtxLine ∧
    c5CtlLine ≠ c5CtxLine := by
  refine ⟨rfl, rfl, rfl, by decide⟩

/-- C5 (amended): `GetDiffLineByPosition` treats the concatenation of all
hunks' DiffLine sequences as one 1-based stream whose counter advances only
on non-Control lines, and — provided no Control line is encountered exactly
at counter value `n` (a Control line sitting there is returned itself) — it
returns the `n`-th non-Control line of the stream, or not-found if the
stream has fewer than `n` non-Control lines. -/
theorem c5_lineAtOverallPosition (hunks : List DiffHunk) (n : Int)
    (hn : 1 ≤ n)
    (hctl : noControlAtPos (hunks.flatMap (·.Lines)) 1 n = true) :
    GetDiffLineByPosition hunks n =
      ((hunks.flatMap (·.Lines)).filter
        (fun l => l.lineType ≠ .Control)).get? (n - 1).toNat := by
  rw [GetDiffLineByPosition, gdlHunks_eq_gdlStream]
  exact gdlStream_eq_filter_get _ 1 n hn hctl

/-- Witness for C5 (amended) on the `TestGetDiffLineByPosition` hunk. -/
theorem c5_lineAtOverallPosition_witness :
    GetDiffLineByPosition c5WitnessHunks 3 =
      ((c5WitnessHunks.flatMap (·.Lines)).filter
        (fun l => l.lineType ≠ .Control)).get? ((3 : Int) - 1).toNat :=
  c5_lineAtOverallPosition c5WitnessHunks 3 (by decide) (by decide)

/-! ## Position mapping: infrastructure for C4 and C8 -/

/-- Unpack the Hunk invariant. -/
theorem hunkWF_spec (h : DiffHunk) (hw : hunkWF h = true) :
    1 ≤ h.OldStart ∧ 1 ≤ h.NewStart ∧ 0 ≤ h.OldLines ∧ 0 ≤ h.NewLines ∧
    linesConsistentB h.Lines h.OldStart h.NewStart = true ∧
    replayEnd h.Lines h.OldStart h.NewStart =
      (h.OldStart + h.OldLines, h.NewStart + h.NewLines) := by
  simp only [hunkWF, Bool.and_eq_true, decide_eq_true_eq, beq_iff_eq] at hw
  tauto

/-- On consistent lines, recorded numbers are bounded below by the cursors. -/
theorem lcB_lb (ls : List DiffLine) (co cn : Int)
    (h : linesConsistentB ls co cn = true) :
    ∀ l ∈ ls,
      (l.lineType = .Context → co ≤ l.OldLineNumber ∧ cn ≤ l.NewLineNumber) ∧
      (l.lineType = .Delete → co ≤ l.OldLineNumber) ∧
      (l.lineType = .Add → cn ≤ l.NewLineNumber) := by
  induction ls generalizing co cn with
  | nil => intro l hl; simp at hl
  | cons m ms ih =>
    intro l hl
    rcases List.mem_cons.mp hl with hme | hmem
    · subst hme
      rcases hm : l.lineType <;>
        simp only [linesConsistentB, hm, Bool.and_eq_true, beq_iff_eq,
          and_assoc] at h <;>
        simp [hm] <;> omega
    · rcases hm : m.lineType <;>
        simp only [linesConsistentB, hm, Bool.and_eq_true, beq_iff_eq,
          and_assoc] at h
      case Context =>
        have := ih (co + 1) (cn + 1) h.2.2 l hmem
        exact ⟨fun ht => by have := this.1 ht; omega,
               fun ht => by have := this.2.1 ht; omega,
               fun ht => by have := this.2.2 ht; omega⟩
      case Add =>
        have := ih co (cn + 1) h.2.2 l hmem
        exact ⟨fun ht => by have := this.1 ht; omega,
               fun ht => by have := this.2.1 ht; omega,
               fun ht => by have := this.2.2 ht; omega⟩
      case Delete =>
        have := ih (co + 1) cn h.2.2 l hmem
        exact ⟨fun ht => by have := this.1 ht; omega,
               fun ht => by have := this.2.1 ht; omega,
               fun ht => by have := this.2.2 ht; omega⟩
      case Control =>
        exact ih co cn h l hmem

/-- On consistent lines, recorded numbers are strictly below the replay end. -/
theorem lcB_ub (ls : List DiffLine) (co cn : Int)
    (h : linesConsistentB ls co cn = true) :
    ∀ l ∈ ls,
      (l.lineType = .Context →
        l.OldLineNumber < (replayEnd ls co cn).1 ∧
        l.NewLineNumber < (replayEnd ls co cn).2) ∧
      (l.lineType = .Delete → l.OldLineNumber < (replayEnd ls co cn).1) ∧
      (l.lineType = .Add → l.NewLineNumber < (replayEnd ls co cn).2) := by
  induction ls generalizing co cn with
  | nil => intro l hl; simp at hl
  | cons m ms ih =>
    intro l hl
    have hend := replayEnd_eq_counts ms
    rcases List.mem_cons.mp hl with hme | hmem
    · subst hme
      rcases hm : l.lineType <;>
        simp only [linesConsistentB, hm, Bool.and_eq_true, beq_iff_eq,
          and_assoc] at h <;>
        simp only [replayEnd, hm] <;> simp [hm, hend] <;> omega
    · rcases hm : m.lineType <;>
        simp only [linesConsistentB, hm, Bool.and_eq_true, beq_iff_eq,
          and_assoc] at h <;>
        simp only [replayEnd, hm]
      case Context => exact ih (co + 1) (cn + 1) h.2.2 l hmem
      case Add => exact ih co (cn + 1) h.2.2 l hmem
      case Delete => exact ih (co + 1) cn h.2.2 l hmem
      case Control => exact ih co cn h l hmem

/-- On consistent lines, the old-to-new replay returns the paired new number
for a Context line, and -1 for a Delete line. -/
theorem replayOld_found (ls : List DiffLine) (co cn : Int)
    (h : linesConsistentB ls co cn = true) :
    ∀ l ∈ ls,
      (l.lineType = .Context →
        replayOld ls co cn l.OldLineNumber = some l.NewLineNumber) ∧
      (l.lineType = .Delete →
        replayOld ls co cn l.OldLineNumber = some (-1)) := by
  induction ls generalizing co cn with
  | nil => intro l hl; simp at hl
  | cons m ms ih =>
    intro l hl
    rcases List.mem_cons.mp hl with hme | hmem
    · subst hme
      rcases hm : l.lineType
      case Context =>
        simp only [linesConsistentB, hm, Bool.and_eq_true, beq_iff_eq,
          and_assoc] at h
        simp [replayOld, hm, h.1, h.2.1]
      case Delete =>
        simp only [linesConsistentB, hm, Bool.and_eq_true, beq_iff_eq,
          and_assoc] at h
        simp [replayOld, hm, h.1]
      case Add => simp [hm]
      case Control => simp [hm]
    · rcases hm : m.lineType <;>
        simp only [linesConsistentB, hm, Bool.and_eq_true, beq_iff_eq,
          and_assoc] at h <;>
        simp only [replayOld, hm]
      case Context =>
        have hlb := lcB_lb ms (co + 1) (cn + 1) h.2.2 l hmem
        have hih := ih (co + 1) (cn + 1) h.2.2 l hmem
        refine ⟨fun ht => ?_, fun ht => ?_⟩
        · have hb := (hlb.1 ht).1
          rw [if_neg (by omega)]; exact hih.1 ht
        · have hb := hlb.2.1 ht
          rw [if_neg (by omega)]; exact hih.2 ht
      case Add =>
        have hih := ih co (cn + 1) h.2.2 l hmem
        exact ⟨fun ht => hih.1 ht, fun ht => hih.2 ht⟩
      case Delete =>
        have hlb := lcB_lb ms (co + 1) cn h.2.2 l hmem
        have hih := ih (co + 1) cn h.2.2 l hmem
        refine ⟨fun ht => ?_, fun ht => ?_⟩
        · have hb := (hlb.1 ht).1
          rw [if_neg (by omega)]; exact hih.1 ht
        · have hb := hlb.2.1 ht
          rw [if_neg (by omega)]; exact hih.2 ht
      case Control =>
        have hih := ih co cn h l hmem
        exact ⟨fun ht => hih.1 ht, fun ht => hih.2 ht⟩

/-- Mirror of `replayOld_found` for the new-to-old replay. -/
theorem replayNew_found (ls : List DiffLine) (co cn : Int)
    (h : linesConsistentB ls co cn = true) :
    ∀ l ∈ ls,
      (l.lineType = .Context →
        replayNew ls co cn l.NewLineNumber = some l.OldLineNumber) ∧
      (l.lineType = .Add →
        replayNew ls co cn l.NewLineNumber = some (-1)) := by
  induction ls generalizing co cn with
  | nil => intro l hl; simp at hl
  | cons m ms ih =>
    intro l hl
    rcases List.mem_cons.mp hl with hme | hmem
    · subst hme
      rcases hm : l.lineType
      case Context =>
        simp only [linesConsistentB, hm, Bool.and_eq_true, beq_iff_eq,
          and_assoc] at h
        simp [replayNew, hm, h.1, h.2.1]
      case Add =>
        simp only [linesConsistentB, hm, Bool.and_eq_true, beq_iff_eq,
          and_assoc] at h
        simp [replayNew, hm, h.2.1]
      case Delete => simp [hm]
      case Control => simp [hm]
    · rcases hm : m.lineType <;>
        simp only [linesConsistentB, hm, Bool.and_eq_true, beq_iff_eq,
          and_assoc] at h <;>
        simp only [replayNew, hm]
      case Context =>
        have hlb := lcB_lb ms (co + 1) (cn + 1) h.2.2 l hmem
        have hih := ih (co + 1) (cn + 1) h.2.2 l hmem
        refine ⟨fun ht => ?_, fun ht => ?_⟩
        · have hb := (hlb.1 ht).2
          rw [if_neg (by omega)]; exact hih.1 ht
        · have hb := hlb.2.2 ht
          rw [if_neg (by omega)]; exact hih.2 ht
      case Add =>
        have hlb := lcB_lb ms co (cn + 1) h.2.2 l hmem
        have hih := ih co (cn + 1) h.2.2 l hmem
        refine ⟨fun ht => ?_, fun ht => ?_⟩
        · have hb := (hlb.1 ht).2
          rw [if_neg (by omega)]; exact hih.1 ht
        · have hb := hlb.2.2 ht
          rw [if_neg (by omega)]; exact hih.2 ht
      case Delete =>
        have hih := ih (co + 1) cn h.2.2 l hmem
        exact ⟨fun ht => hih.1 ht, fun ht => hih.2 ht⟩
      case Control =>
        have hih := ih co cn h l hmem
        exact ⟨fun ht => hih.1 ht, fun ht => hih.2 ht⟩

theorem hunksSortedB_tail (g : DiffHunk) (gs : List DiffHunk)
    (hs : hunksSortedB (g :: gs) = true) : hunksSortedB gs = true := by
  cases gs with
  | nil => rfl
  | cons b rest =>
    simp only [hunksSortedB, Bool.and_eq_true, decide_eq_true_eq,
      and_assoc] at hs
    exact hs.2.2

/-- In a sorted list of well-formed hunks, every later hunk starts at or after
the end of the head hunk, on both numberings. -/
theorem sorted_head_le (g : DiffHunk) (rest : List DiffHunk)
    (hs : hunksSortedB (g :: rest) = true)
    (hwf : ∀ x ∈ g :: rest, hunkWF x = true) :
    ∀ h ∈ rest, g.OldStart + g.OldLines ≤ h.OldStart ∧
                 g.NewStart + g.NewLines ≤ h.NewStart := by
  induction rest generalizing g with
  | nil => intro h hh; simp at hh
  | cons b rest ih =>
    intro h hh
    simp only [hunksSortedB, Bool.and_eq_true, decide_eq_true_eq,
      and_assoc] at hs
    rcases List.mem_cons.mp hh with hhb | hmem
    · subst hhb; exact ⟨hs.1, hs.2.1⟩
    · have hwfb := hunkWF_spec b (hwf b (by simp))
      have := ih b hs.2.2 (fun x hx => hwf x (List.mem_cons_of_mem g hx)) h hmem
      omega

/-- If a sorted, well-formed hunk list contains a hunk whose old range
contains the target and whose replay fires with result `r`, the hunk loop of
`MapOldPositionToNew` returns `r` (whatever the incoming offset). -/
theorem mapOldLoop_inside (hunks : List DiffHunk) (offset : Int)
    (h : DiffHunk) (target r : Int)
    (hs : hunksSortedB hunks = true) (hwf : ∀ x ∈ hunks, hunkWF x = true)
    (hmem : h ∈ hunks)
    (hlb : h.OldStart ≤ target) (hub : target < h.OldStart + h.OldLines)
    (hre : replayOld h.Lines h.OldStart h.NewStart target = some r) :
    mapOldLoop hunks offset target = r := by
  induction hunks generalizing offset with
  | nil => simp at hmem
  | cons g gs ih =>
    rcases List.mem_cons.mp hmem with hhg | hmem'
    · subst hhg
      simp only [mapOldLoop, if_neg (by omega : ¬target < h.OldStart),
        if_neg (by omega : ¬target ≥ h.OldStart + h.OldLines), hre]
    · have hg := hunkWF_spec g (hwf g (by simp))
      have hge := sorted_head_le g gs hs hwf h hmem'
      simp only [mapOldLoop,
        if_neg (by omega : ¬target < g.OldStart),
        if_pos (by omega : target ≥ g.OldStart + g.OldLines)]
      exact ih (offset + (g.NewLines - g.OldLines)) (hunksSortedB_tail g gs hs)
        (fun x hx => hwf x (List.mem_cons_of_mem g hx)) hmem'

/-- Mirror of `mapOldLoop_inside` for `MapNewPositionToOld`. -/
theorem mapNewLoop_inside (hunks : List DiffHunk) (offset : Int)
    (h : DiffHunk) (target r : Int)
    (hs : hunksSortedB hunks = true) (hwf : ∀ x ∈ hunks, hunkWF x = true)
    (hmem : h ∈ hunks)
    (hlb : h.NewStart ≤ target) (hub : target < h.NewStart + h.NewLines)
    (hre : replayNew h.Lines h.OldStart h.NewStart target = some r) :
    mapNewLoop hunks offset target = r := by
  induction hunks generalizing offset with
  | nil => simp at hmem
  | cons g gs ih =>
    rcases List.mem_cons.mp hmem with hhg | hmem'
    · subst hhg
      simp only [mapNewLoop, if_neg (by omega : ¬target < h.NewStart),
        if_neg (by omega : ¬target ≥ h.NewStart + h.NewLines), hre]
    · have hg := hunkWF_spec g (hwf g (by simp))
      have hge := sorted_head_le g gs hs hwf h hmem'
      simp only [mapNewLoop,
        if_neg (by omega : ¬target < g.NewStart),
        if_pos (by omega : target ≥ g.NewStart + g.NewLines)]
      exact ih (offset + (g.NewLines - g.OldLines)) (hunksSortedB_tail g gs hs)
        (fun x hx => hwf x (List.mem_cons_of_mem g hx)) hmem'

/-- Unpack the Patch invariant. -/
theorem patchWF_spec (hunks : List DiffHunk) (hwf : patchWF hunks = true) :
    (∀ x ∈ hunks, hunkWF x = true) ∧ hunksSortedB hunks = true := by
  simp only [patchWF, Bool.and_eq_true, List.all_eq_true] at hwf
  exact hwf

/-- C4: for every patch satisfying the data model's Patch/Hunk invariants and
every old-side line number carried by a Context line of the patch, mapping
old-to-new and then new-to-old is the identity. -/
theorem c4_map_roundtrip (patch : String) (hunks : List DiffHunk)
    (h : DiffHunk) (l : DiffLine)
    (hp : ParsePatch patch = .ok hunks) (hwf : patchWF hunks = true)
    (hmem : h ∈ hunks) (hlmem : l ∈ h.Lines) (hctx : l.lineType = .Context) :
    ∃ n, MapOldPositionToNew patch l.OldLineNumber = .ok n ∧
         MapNewPositionToOld patch n = .ok l.OldLineNumber := by
  obtain ⟨hall, hsort⟩ := patchWF_spec hunks hwf
  obtain ⟨ho1, hn1, hoL, hnL, hcons, hrep⟩ := hunkWF_spec h (hall h hmem)
  have hlbc := (lcB_lb h.Lines h.OldStart h.NewStart hcons l hlmem).1 hctx
  have hubc := (lcB_ub h.Lines h.OldStart h.NewStart hcons l hlmem).1 hctx
  rw [hrep] at hubc
  have hubo : l.OldLineNumber < h.OldStart + h.OldLines := by
    simpa using hubc.1
  have hubn : l.NewLineNumber < h.NewStart + h.NewLines := by
    simpa using hubc.2
  have hro := (replayOld_found h.Lines h.OldStart h.NewStart hcons l hlmem).1 hctx
  have hrn := (replayNew_found h.Lines h.OldStart h.NewStart hcons l hlmem).1 hctx
  refine ⟨l.NewLineNumber, ?_, ?_⟩
  · cases hunks with
    | nil => simp at hmem
    | cons h0 rest =>
      have hstart : h0.OldStart ≤ l.OldLineNumber := by
        rcases List.mem_cons.mp hmem with he | hm2
        · subst he; exact hlbc.1
        · have := sorted_head_le h0 rest hsort hall h hm2
          have h0spec := hunkWF_spec h0 (hall h0 (by simp))
          omega
      simp only [MapOldPositionToNew, hp]
      rw [if_neg (by omega)]
      exact congrArg Except.ok
        (mapOldLoop_inside (h0 :: rest) 0 h l.OldLineNumber l.NewLineNumber
          hsort hall hmem hlbc.1 hubo hro)
  · cases hunks with
    | nil => simp at hmem
    | cons h0 rest =>
      have hstart : h0.NewStart ≤ l.NewLineNumber := by
        rcases List.mem_cons.mp hmem with he | hm2
        · subst he; exact hlbc.2
        · have := sorted_head_le h0 rest hsort hall h hm2
          have h0spec := hunkWF_spec h0 (hall h0 (by simp))
          omega
      simp only [MapNewPositionToOld, hp]
      rw [if_neg (by omega)]
      exact congrArg Except.ok
        (mapNewLoop_inside (h0 :: rest) 0 h l.NewLineNumber l.OldLineNumber
          hsort hall hmem hlbc.2 hubn hrn)

/-- Witness for C4: round trip on the Context line `ctx2` (old line 3, new
line 4) of `mapWPatch`. -/
theorem c4_map_roundtrip_witness :
    ∃ n, MapOldPositionToNew mapWPatch mapWCtx.OldLineNumber = .ok n ∧
         MapNewPositionToOld mapWPatch n = .ok mapWCtx.OldLineNumber :=
  c4_map_roundtrip mapWPatch [mapWHunk] mapWHunk mapWCtx
    (by rfl) (by decide) (by decide) (by decide) (by decide)

/-- C8: for every patch satisfying the data model's Patch/Hunk invariants,
mapping the old line number of a Delete line old-to-new returns -1, and
mapping the new line number of an Add line new-to-old returns -1. -/
theorem c8_deleted_added_no_correspondence (patch : String)
    (hunks : List DiffHunk) (h : DiffHunk) (l : DiffLine)
    (hp : ParsePatch patch = .ok hunks) (hwf : patchWF hunks = true)
    (hmem : h ∈ hunks) (hlmem : l ∈ h.Lines) :
    (l.lineType = .Delete →
      MapOldPositionToNew patch l.OldLineNumber = .ok (-1)) ∧
    (l.lineType = .Add →
      MapNewPositionToOld patch l.NewLineNumber = .ok (-1)) := by
  obtain ⟨hall, hsort⟩ := patchWF_spec hunks hwf
  obtain ⟨ho1, hn1, hoL, hnL, hcons, hrep⟩ := hunkWF_spec h (hall h hmem)
  constructor
  · intro hdel
    have hlbd := (lcB_lb h.Lines h.OldStart h.NewStart hcons l hlmem).2.1 hdel
    have hubd := (lcB_ub h.Lines h.OldStart h.NewStart hcons l hlmem).2.1 hdel
    rw [hrep] at hubd
    have hubo : l.OldLineNumber < h.OldStart + h.OldLines := by simpa using hubd
    have hro := (replayOld_found h.Lines h.OldStart h.NewStart hcons l hlmem).2 hdel
    cases hunks with
    | nil => simp at hmem
    | cons h0 rest =>
      have hstart : h0.OldStart ≤ l.OldLineNumber := by
        rcases List.mem_cons.mp hmem with he | hm2
        · subst he; exact hlbd
        · have := sorted_head_le h0 rest hsort hall h hm2
          have h0spec := hunkWF_spec h0 (hall h0 (by simp))
          omega
      simp only [MapOldPositionToNew, hp]
      rw [if_neg (by omega)]
      exact congrArg Except.ok
        (mapOldLoop_inside (h0 :: rest) 0 h l.OldLineNumber (-1)
          hsort hall hmem hlbd hubo hro)
  · intro hadd
    have hlba := (lcB_lb h.Lines h.OldStart h.NewStart hcons l hlmem).2.2 hadd
    have huba := (lcB_ub h.Lines h.OldStart h.NewStart hcons l hlmem).2.2 hadd
    rw [hrep] at huba
    have hubn : l.NewLineNumber < h.NewStart + h.NewLines := by simpa using huba
    have hrn := (replayNew_found h.Lines h.OldStart h.NewStart hcons l hlmem).2 hadd
    cases hunks with
    | nil => simp at hmem
    | cons h0 rest =>
      have hstart : h0.NewStart ≤ l.NewLineNumber := by
        rcases List.mem_cons.mp hmem with he | hm2
        · subst he; exact hlba
        · have := sorted_head_le h0 rest hsort hall h hm2
          have h0spec := hunkWF_spec h0 (hall h0 (by simp))
          omega
      simp only [MapNewPositionToOld, hp]
      rw [if_neg (by omega)]
      exact congrArg Except.ok
        (mapNewLoop_inside (h0 :: rest) 0 h l.NewLineNumber (-1)
          hsort hall hmem hlba hubn hrn)

/-- Witness for C8 on the Delete line (old line 4) and the Add line (new
line 3) of `mapWPatch`. -/
theorem c8_deleted_added_no_correspondence_witness :
    MapOldPositionToNew mapWPatch mapWDel.OldLineNumber = .ok (-1) ∧
    MapNewPositionToOld mapWPatch mapWAdd.NewLineNumber = .ok (-1) :=
  ⟨(c8_deleted_added_no_correspondence mapWPatch [mapWHunk] mapWHunk mapWDel
      (by rfl) (by decide) (by decide) (by decide)).1 (by decide),
   (c8_deleted_added_no_correspondence mapWPatch [mapWHunk] mapWHunk mapWAdd
      (by rfl) (by decide) (by decide) (by decide)).2 (by decide)⟩

/-! ## Target location and patch synthesis: C1, C2, C6, C7, C10 -/

theorem firstDiffIdx_self (a : List String) : firstDiffIdx a a = none := by
  induction a with
  | nil => rfl
  | cons x xs ih => simp [firstDiffIdx, ih]

theorem firstDiffIdx_none_eq (a b : List String) (hlen : a.length = b.length)
    (h : firstDiffIdx a b = none) : a = b := by
  induction a generalizing b with
  | nil => cases b with
    | nil => rfl
    | cons y ys => simp at hlen
  | cons x xs ih =>
    cases b with
    | nil => simp at hlen
    | cons y ys =>
      by_cases hxy : x = y
      · subst hxy
        simp only [firstDiffIdx, ne_eq, not_true_eq_false, if_neg, ite_false,
          Option.map_eq_none, not_not] at h
        · simp only [List.length_cons, Nat.add_right_cancel_iff] at hlen
          rw [ih ys hlen (by simpa using h)]
      · simp [firstDiffIdx, hxy] at h

theorem firstDiffIdx_first (a b : List String) (j : Nat)
    (hlen : a.length = b.length)
    (hagree : ∀ i, i < j → a.get? i = b.get? i)
    (hdiff : a.get? j ≠ b.get? j) :
    firstDiffIdx a b = some j := by
  induction a generalizing b j with
  | nil =>
    cases b with
    | nil => simp at hdiff
    | cons y ys => simp at hlen
  | cons x xs ih =>
    cases b with
    | nil => simp at hlen
    | cons y ys =>
      cases j with
      | zero =>
        have hxy : x ≠ y := by simpa using hdiff
        simp [firstDiffIdx, hxy]
      | succ j' =>
        have hxy : x = y := by
          have := hagree 0 (Nat.succ_pos j')
          simpa using this
        rw [firstDiffIdx, if_neg (by simp [hxy])]
        have hih := ih ys j' (by simpa using hlen)
          (fun i hi => by simpa using hagree (i + 1) (by omega))
          (by simpa using hdiff)
        simp [hih]

theorem regionEqB_iff (fileLines addedLines : List String) (i : Nat) :
    regionEqB fileLines addedLines i = true ↔
      (i + addedLines.length ≤ fileLines.length ∧
       (fileLines.drop i).take addedLines.length = addedLines) := by
  simp [regionEqB]

theorem sliceLen (fileLines addedLines : List String) (t : Nat)
    (h : t + addedLines.length ≤ fileLines.length) :
    ((fileLines.drop t).take addedLines.length).length = addedLines.length := by
  simp only [List.length_take, List.length_drop]
  omega

theorem verifyAt_ok (fileLines addedLines : List String) (t r : Nat)
    (h : verifyAt fileLines addedLines t = .ok r) :
    r = t ∧ t + addedLines.length ≤ fileLines.length ∧
      (fileLines.drop t).take addedLines.length = addedLines := by
  unfold verifyAt at h
  by_cases hb : t + addedLines.length ≤ fileLines.length
  · rw [if_pos hb] at h
    cases hf : firstDiffIdx ((fileLines.drop t).take addedLines.length)
        addedLines with
    | some j => simp only [hf] at h; exact absurd h (by simp)
    | none =>
      simp only [hf] at h
      refine ⟨by injection h with h'; omega, hb, ?_⟩
      exact firstDiffIdx_none_eq _ _ (sliceLen fileLines addedLines t hb) hf
  · rw [if_neg hb] at h
    exact absurd h (by simp)

theorem verifyAt_pass (fileLines addedLines : List String) (t : Nat)
    (hb : t + addedLines.length ≤ fileLines.length)
    (hs : (fileLines.drop t).take addedLines.length = addedLines) :
    verifyAt fileLines addedLines t = .ok t := by
  unfold verifyAt
  rw [if_pos hb, hs, firstDiffIdx_self]

theorem strat2Target_some (fileLines addedLines : List String) (t : Nat)
    (h : strat2Target fileLines addedLines = some t) :
    regionEqB fileLines addedLines t = true := by
  unfold strat2Target at h
  by_cases hle : addedLines.length ≤ fileLines.length
  · rw [if_pos hle] at h
    exact List.find?_some h
  · rw [if_neg hle] at h
    exact absurd h (by simp)

/-- Strategy 2 finds `k` when `addedLines` occurs at `k` and nowhere else. -/
theorem strat2_finds (fileLines addedLines : List String) (k : Nat)
    (hne : addedLines ≠ [])
    (hk : regionEqB fileLines addedLines k = true)
    (huniq : ∀ i, i < fileLines.length →
      regionEqB fileLines addedLines i = true → i = k) :
    strat2Target fileLines addedLines = some k := by
  have hlen : 0 < addedLines.length := List.length_pos.mpr hne
  have hkb := ((regionEqB_iff fileLines addedLines k).mp hk).1
  unfold strat2Target
  rw [if_pos (by omega)]
  cases hfind : (List.range (fileLines.length - addedLines.length + 1)).find?
      (fun i => regionEqB fileLines addedLines i) with
  | none =>
    exfalso
    have := List.find?_eq_none.mp hfind k (by rw [List.mem_range]; omega)
    simp [hk] at this
  | some j =>
    have hj := List.find?_some hfind
    have hjm := List.mem_of_find?_eq_some hfind
    rw [List.mem_range] at hjm
    have hjlt : j < fileLines.length := by omega
    rw [huniq j hjlt hj]

/-- What a successful locate guarantees: the target is in bounds and the file
region there equals the added lines (this is C2's verification result). -/
theorem locateTarget_ok (fileLines : List String) (diffHunk : String)
    (addedLines : List String) (t : Nat)
    (h : locateTarget fileLines diffHunk addedLines = .ok t) :
    t + addedLines.length ≤ fileLines.length ∧
      (fileLines.drop t).take addedLines.length = addedLines := by
  unfold locateTarget at h
  cases hs1 : strat1Target diffHunk with
  | some tI =>
    simp only [hs1] at h
    by_cases hneg : tI < 0
    · rw [if_pos hneg] at h; exact absurd h (by simp)
    · rw [if_neg hneg] at h
      have := verifyAt_ok fileLines addedLines tI.toNat t h
      exact ⟨this.1 ▸ this.2.1, this.1 ▸ this.2.2⟩
  | none =>
    simp only [hs1] at h
    cases hs2 : strat2Target fileLines addedLines with
    | some t2 =>
      simp only [hs2] at h
      have := verifyAt_ok fileLines addedLines t2 t h
      exact ⟨this.1 ▸ this.2.1, this.1 ▸ this.2.2⟩
    | none => simp only [hs2] at h; exact absurd h (by simp)

/-- C1 counterexample: the hunk `@@ -1,1 +1,1 @@\n+TARGET` declares its added
line at new line 1, but in the current file `["x", "TARGET", "y"]` the added
lines occur verbatim and uniquely at 0-based offset 1.  Strategy 1's stale
candidate (offset 0) wins, verification fails there, and locate reports a
ContentMismatch error instead of returning 1: there is no fallback to
Strategy 2 once Strategy 1 produced a candidate. -/
theorem c1_counterexample :
    GetAddedLines "@@ -1,1 +1,1 @@\n+TARGET" = ["TARGET"] ∧
    regionEqB ["x", "TARGET", "y"] ["TARGET"] 0 = false ∧
    regionEqB ["x", "TARGET", "y"] ["TARGET"] 1 = true ∧
    regionEqB ["x", "TARGET", "y"] ["TARGET"] 2 = false ∧
    locateTarget ["x", "TARGET", "y"] "@@ -1,1 +1,1 @@\n+TARGET" ["TARGET"] =
      .error (.contentMismatch 1 ["TARGET"] ["x"]) ∧
    locateTarget ["x", "TARGET", "y"] "@@ -1,1 +1,1 @@\n+TARGET"
      ["TARGET"] ≠ .ok 1 := by
  refine ⟨rfl, rfl, rfl, rfl, rfl, ?_⟩
  intro h
  rw [show locateTarget ["x", "TARGET", "y"] "@@ -1,1 +1,1 @@\n+TARGET"
      ["TARGET"] = .error (.contentMismatch 1 ["TARGET"] ["x"]) from rfl] at h
  exact Except.noConfusion h

/-- C1 (amended): if the hunk's added lines occur verbatim and uniquely at
0-based offset `k` of the current file, locate returns `k` with no error
provided Strategy 1's candidate (the zero-based new-file line number of the
hunk's first Add line), when one exists, equals `k`; when Strategy 1
produces no candidate (unparseable hunk or no Add line), Strategy 2's
first-match search returns `k`.  A stale Strategy-1 candidate different from
`k` instead yields a ContentMismatch error — locate does not fall back to
Strategy 2 in that case. -/
theorem c1_locate_exactness (fileLines : List String) (hunkText : String)
    (k : Nat)
    (hne : GetAddedLines hunkText ≠ [])
    (hk : regionEqB fileLines (GetAddedLines hunkText) k = true)
    (huniq : ∀ i, i < fileLines.length →
      regionEqB fileLines (GetAddedLines hunkText) i = true → i = k)
    (hstrat : strat1Target hunkText = some (k : Int) ∨
              strat1Target hunkText = none) :
    locateTarget fileLines hunkText (GetAddedLines hunkText) = .ok k := by
  obtain ⟨hkb, hks⟩ := (regionEqB_iff fileLines (GetAddedLines hunkText) k).mp hk
  rcases hstrat with h1 | h1
  · unfold locateTarget
    simp only [h1]
    rw [if_neg (by omega), Int.toNat_natCast]
    exact verifyAt_pass fileLines (GetAddedLines hunkText) k hkb hks
  · unfold locateTarget
    simp only [h1, strat2_finds fileLines (GetAddedLines hunkText) k hne hk huniq]
    exact verifyAt_pass fileLines (GetAddedLines hunkText) k hkb hks

/-- Witness for C1 (amended): Strategy 1's candidate is fresh and equals the
unique occurrence offset 2. -/
theorem c1_locate_exactness_witness :
    locateTarget ["a", "b", "TARGET", "c"] "@@ -3,1 +3,1 @@\n+TARGET"
      (GetAddedLines "@@ -3,1 +3,1 @@\n+TARGET") = .ok 2 :=
  c1_locate_exactness ["a", "b", "TARGET", "c"] "@@ -3,1 +3,1 @@\n+TARGET" 2
    (by decide) (by decide) (by decide) (Or.inl (by rfl))

/-- C2: whenever `createPatch` returns a synthesized patch, the located
target passed verification: the current file's region at the target equals
the hunk's added lines.  Every other path (mismatch, no match, or the
out-of-bounds case in which Go skips the comparison and then panics while
synthesizing) ends in an error, so no patch is ever emitted for an
unverified offset. -/
theorem c2_verify_before_synthesis (fileLines : List String)
    (comment : ReviewComment) (out : List String)
    (hok : createPatch fileLines comment = .ok out) :
    ∃ t, locateTarget fileLines comment.DiffHunk
        (GetAddedLines comment.DiffHunk) = .ok t ∧
      t + (GetAddedLines comment.DiffHunk).length ≤ fileLines.length ∧
      (fileLines.drop t).take (GetAddedLines comment.DiffHunk).length =
        GetAddedLines comment.DiffHunk := by
  unfold createPatch at hok
  by_cases he : (GetAddedLines comment.DiffHunk).isEmpty
  · rw [if_pos he] at hok; exact absurd hok (by simp)
  · rw [if_neg he] at hok
    cases hl : locateTarget fileLines comment.DiffHunk
        (GetAddedLines comment.DiffHunk) with
    | error e => simp only [hl] at hok; exact absurd hok (by simp)
    | ok t => exact ⟨t, rfl, locateTarget_ok _ _ _ _ hl⟩

/-- Witness for C2 on a concrete successful run of `createPatch`. -/
theorem c2_verify_before_synthesis_witness :
    ∃ t, locateTarget cpWFile cpWComment.DiffHunk
        (GetAddedLines cpWComment.DiffHunk) = .ok t ∧
      t + (GetAddedLines cpWComment.DiffHunk).length ≤ cpWFile.length ∧
      (cpWFile.drop t).take (GetAddedLines cpWComment.DiffHunk).length =
        GetAddedLines cpWComment.DiffHunk :=
  c2_verify_before_synthesis cpWFile cpWComment cpWOut (by rfl)

/-- C6: when Strategy 1's candidate is `t` and the file region at `t` first
differs from the added lines at relative index `j`, locate fails with a
ContentMismatch error whose line is exactly the 1-based absolute file line
`t + j + 1` and which carries the expected span (the added lines) and the
actual span (the file region) for diagnosis. -/
theorem c6_mismatch_reporting (fileLines : List String) (hunkText : String)
    (t j : Nat)
    (hstrat : strat1Target hunkText = some (t : Int))
    (hbound : t + (GetAddedLines hunkText).length ≤ fileLines.length)
    (hagree : ∀ i, i < j →
      ((fileLines.drop t).take (GetAddedLines hunkText).length).get? i =
        (GetAddedLines hunkText).get? i)
    (hdiff : ((fileLines.drop t).take (GetAddedLines hunkText).length).get? j ≠
        (GetAddedLines hunkText).get? j) :
    locateTarget fileLines hunkText (GetAddedLines hunkText) =
      .error (.contentMismatch ((t : Int) + j + 1) (GetAddedLines hunkText)
        ((fileLines.drop t).take (GetAddedLines hunkText).length)) := by
  unfold locateTarget
  simp only [hstrat]
  rw [if_neg (by omega), Int.toNat_natCast]
  unfold verifyAt
  rw [if_pos hbound,
    firstDiffIdx_first _ _ j (sliceLen _ _ _ hbound) hagree hdiff]

/-- Witness for C6: mismatch at relative index 0 of a stale target 0 is
reported as absolute 1-based line 1, with expected and actual spans. -/
theorem c6_mismatch_reporting_witness :
    locateTarget ["x", "TARGET", "y"] "@@ -1,1 +1,1 @@\n+TARGET"
      (GetAddedLines "@@ -1,1 +1,1 @@\n+TARGET") =
      .error (.contentMismatch (((0 : Nat) : Int) + (0 : Nat) + 1)
        (GetAddedLines "@@ -1,1 +1,1 @@\n+TARGET")
        ((["x", "TARGET", "y"].drop 0).take
          (GetAddedLines "@@ -1,1 +1,1 @@\n+TARGET").length)) :=
  c6_mismatch_reporting ["x", "TARGET", "y"] "@@ -1,1 +1,1 @@\n+TARGET" 0 0
    (by rfl) (by decide) (fun i hi => absurd hi (by omega)) (by decide)

/-- C10: when the candidate came from Strategy 2 (Strategy 1 produced none),
the subsequent verification never finds a differing index — Strategy 2 only
accepts exact matches — so a ContentMismatch error can only arise from a
Strategy-1 candidate. -/
theorem c10_strategy2_never_mismatch (fileLines : List String)
    (comment : ReviewComment)
    (hstrat : strat1Target comment.DiffHunk = none) :
    ∀ line expected actual,
      createPatch fileLines comment ≠
        .error (.contentMismatch line expected actual) := by
  intro line expected actual hcontra
  unfold createPatch at hcontra
  by_cases he : (GetAddedLines comment.DiffHunk).isEmpty
  · rw [if_pos he] at hcontra; simp at hcontra
  · rw [if_neg he] at hcontra
    unfold locateTarget at hcontra
    simp only [hstrat] at hcontra
    cases hs2 : strat2Target fileLines (GetAddedLines comment.DiffHunk) with
    | none => simp only [hs2] at hcontra; simp at hcontra
    | some t =>
      simp only [hs2] at hcontra
      obtain ⟨hb, hsl⟩ := (regionEqB_iff _ _ t).mp (strat2Target_some _ _ t hs2)
      rw [verifyAt_pass _ _ t hb hsl] at hcontra
      simp at hcontra

/-- Witness for C10: a hunk whose header does not parse (Strategy 1 yields
no candidate) goes through Strategy 2 and cannot produce a ContentMismatch. -/
theorem c10_strategy2_never_mismatch_witness :
    createPatch ["a"] ⟨"p", "bad header\n+a", "s"⟩ ≠
      .error (.contentMismatch 1 ["a"] ["a"]) :=
  c10_strategy2_never_mismatch ["a"] ⟨"p", "bad header\n+a", "s"⟩ (by rfl)
    1 ["a"] ["a"]

/-- C7: every synthesized patch consists of the three file-header lines
followed by a single hunk whose header is
`@@ -oldStart,oldCount +newStart,newCount @@` with
oldStart = newStart = clamped window start + 1 (the window being 3 lines
before the target and 3 lines after target+removeCount, clamped to the file),
oldCount = window length, and
newCount = oldCount - removeCount + len(replacementLines); the body is the
leading context, the removed region, the replacement lines (the suggestion
with one trailing newline stripped before splitting, so no spurious empty
added line), and the trailing context. -/
theorem c7_patch_synthesis (fileLines : List String) (comment : ReviewComment)
    (out : List String)
    (hok : createPatch fileLines comment = .ok out) :
    ∃ t, locateTarget fileLines comment.DiffHunk
        (GetAddedLines comment.DiffHunk) = .ok t ∧
      out.get? 3 = some ("@@ -" ++ toString (t - 3 + 1) ++ ","
        ++ toString (min (t + (GetAddedLines comment.DiffHunk).length + 3)
            fileLines.length - (t - 3))
        ++ " +" ++ toString (t - 3 + 1) ++ ","
        ++ toString (((min (t + (GetAddedLines comment.DiffHunk).length + 3)
              fileLines.length - (t - 3) : Nat) : Int)
            - ((GetAddedLines comment.DiffHunk).length : Int)
            + ((splitLines (trimSuffixNL comment.SuggestedCode)).length : Int))
        ++ " @@") ∧
      out.drop 4 =
        ((fileLines.drop (t - 3)).take (t - (t - 3))).map (" " ++ ·)
        ++ ((fileLines.drop t).take
            (GetAddedLines comment.DiffHunk).length).map ("-" ++ ·)
        ++ (splitLines (trimSuffixNL comment.SuggestedCode)).map ("+" ++ ·)
        ++ ((fileLines.drop (t + (GetAddedLines comment.DiffHunk).length)).take
            (min (t + (GetAddedLines comment.DiffHunk).length + 3)
              fileLines.length
              - (t + (GetAddedLines comment.DiffHunk).length))).map
            (" " ++ ·) := by
  unfold createPatch at hok
  by_cases he : (GetAddedLines comment.DiffHunk).isEmpty
  · rw [if_pos he] at hok; exact absurd hok (by simp)
  · rw [if_neg he] at hok
    cases hl : locateTarget fileLines comment.DiffHunk
        (GetAddedLines comment.DiffHunk) with
    | error e => simp only [hl] at hok; exact absurd hok (by simp)
    | ok t =>
      simp only [hl, Except.ok.injEq] at hok
      subst hok
      exact ⟨t, rfl, rfl, rfl⟩

/-- Witness for C7 on a concrete successful run of `createPatch`. -/
theorem c7_patch_synthesis_witness :
    ∃ t, locateTarget cpWFile cpWComment.DiffHunk
        (GetAddedLines cpWComment.DiffHunk) = .ok t ∧
      cpWOut.get? 3 = some ("@@ -" ++ toString (t - 3 + 1) ++ ","
        ++ toString (min (t + (GetAddedLines cpWComment.DiffHunk).length + 3)
            cpWFile.length - (t - 3))
        ++ " +" ++ toString (t - 3 + 1) ++ ","
        ++ toString (((min (t + (GetAddedLines cpWComment.DiffHunk).length + 3)
              cpWFile.length - (t - 3) : Nat) : Int)
            - ((GetAddedLines cpWComment.DiffHunk).length : Int)
            + ((splitLines (trimSuffixNL cpWComment.SuggestedCode)).length : Int))
        ++ " @@") ∧
      cpWOut.drop 4 =
        ((cpWFile.drop (t - 3)).take (t - (t - 3))).map (" " ++ ·)
        ++ ((cpWFile.drop t).take
            (GetAddedLines cpWComment.DiffHunk).length).map ("-" ++ ·)
        ++ (splitLines (trimSuffixNL cpWComment.SuggestedCode)).map ("+" ++ ·)
        ++ ((cpWFile.drop (t + (GetAddedLines cpWComment.DiffHunk).length)).take
            (min (t + (GetAddedLines cpWComment.DiffHunk).length + 3)
              cpWFile.length
              - (t + (GetAddedLines cpWComment.DiffHunk).length))).map
            (" " ++ ·) :=
  c7_patch_synthesis cpWFile cpWComment cpWOut (by rfl)

/-! ## C9: commenting ranges -/

/-- The per-hunk scan's closed ranges plus its still-open range equal the
greedy run coalescing of the line keys. -/
theorem gcrLines_spec (isBase : Bool) (ls : List DiffLine) :
    ∀ (op : Option (Int × Int)) (acc : List (Int × Int)),
      (gcrLines isBase ls op acc).1 ++ (gcrLines isBase ls op acc).2.toList =
        acc ++ runsOf (ls.map (commentKey isBase)) op := by
  induction ls with
  | nil => intro op acc; cases op <;> simp [gcrLines, runsOf]
  | cons l ls ih =>
    intro op acc
    cases hk : commentKey isBase l with
    | some k =>
      cases op with
      | none =>
        simp only [gcrLines, hk, List.map_cons, runsOf]
        exact ih _ _
      | some r =>
        obtain ⟨s, e⟩ := r
        simp only [gcrLines, hk, List.map_cons, runsOf]
        exact ih _ _
    | none =>
      cases op with
      | none =>
        simp only [gcrLines, hk, List.map_cons, runsOf]
        exact ih _ _
      | some r =>
        simp only [gcrLines, hk, List.map_cons, runsOf]
        rw [ih none (acc ++ [r])]
        simp

/-- The hunk loop of `GetCommentingRanges` appends each hunk's coalesced runs
(closing any range still open at the hunk boundary). -/
theorem gcrHunks_spec (isBase : Bool) (hunks : List DiffHunk) :
    ∀ acc, gcrHunks isBase hunks acc =
      acc ++ hunks.flatMap
        (fun h => runsOf (h.Lines.map (commentKey isBase)) none) := by
  induction hunks with
  | nil => intro acc; simp [gcrHunks]
  | cons h hs ih =>
    intro acc
    have hspec := gcrLines_spec isBase h.Lines none acc
    rcases hgl : gcrLines isBase h.Lines none acc with ⟨acc2, op⟩
    rw [hgl] at hspec
    cases op with
    | some r =>
      simp only [Option.toList] at hspec
      simp only [gcrHunks, hgl]
      show gcrHunks isBase hs (acc2 ++ [r]) = _
      rw [ih (acc2 ++ [r]), hspec]
      simp [List.flatMap_cons, List.append_assoc]
    | none =>
      simp only [Option.toList, List.append_nil] at hspec
      simp only [gcrHunks, hgl]
      show gcrHunks isBase hs acc2 = _
      rw [ih acc2, hspec]
      simp [List.flatMap_cons, List.append_assoc]

/-- C9: `GetCommentingRanges` emits, per hunk in order, the greedy coalescing
of the commentable line keys (base side: Delete/Context by old line number;
modified side: Add/Context by new line number) into closed inclusive
intervals, where a non-commentable line breaks a run and a hunk boundary
closes an open interval; in particular, on the old side of
`@@ -10,5 +10,4 @@ ...` with one leading context line, two deletions and two
trailing context lines it returns the single range (10, 14). -/
theorem c9_commentable_ranges :
    (∀ (patch : String) (isBase : Bool) (hunks : List DiffHunk),
      ParsePatch patch = .ok hunks →
      GetCommentingRanges patch isBase =
        .ok (hunks.flatMap
          (fun h => runsOf (h.Lines.map (commentKey isBase)) none))) ∧
    GetCommentingRanges
      "@@ -10,5 +10,4 @@\n context 1\n-deleted 1\n-deleted 2\n context 2\n context 3"
      true = .ok [(10, 14)] := by
  constructor
  · intro patch isBase hunks hp
    unfold GetCommentingRanges
    simp only [hp, Except.ok.injEq]
    simpa using gcrHunks_spec isBase hunks []
  · rfl

/-- Witness for C9's general clause at the claim's own example hunk. -/
theorem c9_commentable_ranges_witness :
    GetCommentingRanges
      "@@ -10,5 +10,4 @@\n context 1\n-deleted 1\n-deleted 2\n context 2\n context 3"
      true = .ok (c9WitnessHunks.flatMap
        (fun h => runsOf (h.Lines.map (commentKey true)) none)) :=
  c9_commentable_ranges.1
    "@@ -10,5 +10,4 @@\n context 1\n-deleted 1\n-deleted 2\n context 2\n context 3"
    true c9WitnessHunks (by rfl)

end GhReview
